import Mathlib

/-! nojunk: URL filtering by file extension.

A shallow embedding of `src/nojunk.go` (functions `filterURLs`,
`readURLsFromInput`, `readURLsFromFile`) together with the parts of the Go
standard library they call: `regexp.ReplaceAllString` for the one pattern the
program compiles, `filepath.Ext`, `strings.ToLower`, `strings.TrimSpace`.

Modelling conventions.
* A Go `string` is a Lean `String`, that is a sequence of Unicode code points
  (the input is taken to be valid UTF-8). The special characters of the
  program (`.`, `/`, `?`, `#`, white space) are ASCII, so scanning runes and
  scanning bytes agree.
* `filepath.Ext` is the Unix one: the only path separator is `/`.
* The operating system and the `bufio.Scanner` are the environment of the two
  readers: a reader is a function of what `os.Open` and the scanner give it, and
  returns the error message of `log.Fatalf` where the program exits.
* The Unicode lower-case table behind `unicode.ToLower` is data of the Go
  runtime, not of this repository; it is the parameter `tbl`, consulted only
  for code points above `unicode.MaxASCII`, exactly as `unicode.ToLower` does.
-/

namespace NoJunk

/-! ## `unicode.ToLower` and `strings.ToLower` -/

/-- Go `unicode.ToLower`: for `r <= MaxASCII` the letters `A..Z` are shifted by
`'a' - 'A'` and every other rune is returned unchanged; above `MaxASCII` the
Unicode case table `tbl` decides. -/
def toLowerRune (tbl : Char → Char) (r : Char) : Char :=
  if r.toNat ≤ 127 then
    if 65 ≤ r.toNat ∧ r.toNat ≤ 90 then Char.ofNat (r.toNat + 32) else r
  else tbl r

/-- Go `strings.ToLower`: every rune mapped through `unicode.ToLower`. -/
def ToLower (tbl : Char → Char) (s : String) : String :=
  ⟨s.data.map (toLowerRune tbl)⟩

/-! ## The regular expression of `filterURLs` -/

/-- The fragment of Go regular expressions used by the program: literals,
one-rune classes, greedy star of a one-rune class, concatenation, alternation
(preferring the left branch), `$` without the `m` flag (end of text) and
capturing groups (which do not change what is matched). -/
inductive Regex where
  | lit (c : Char)
  | cls (p : Char → Bool)
  | starCls (p : Char → Bool)
  | cat (r s : Regex)
  | alt (r s : Regex)
  | endText
  | group (r : Regex)

/-- Greedy `x*` for a one-rune class `x`: consume one more rune when possible
and fall back to stopping here when the continuation then fails. -/
def matchStar (p : Char → Bool) : List Char → (List Char → Option (List Char)) → Option (List Char)
  | [], k => k []
  | x :: xs, k =>
    if p x then
      match matchStar p xs k with
      | some rest => some rest
      | none => k (x :: xs)
    else k (x :: xs)

/-- Backtracking matcher anchored at the start of `s`, with Go's leftmost-first
preference order (Perl-like, not POSIX longest). The continuation `k` receives
the text left after the part matched so far. -/
def Regex.matchK : Regex → List Char → (List Char → Option (List Char)) → Option (List Char)
  | .lit c, s, k =>
    match s with
    | [] => none
    | x :: xs => if x = c then k xs else none
  | .cls p, s, k =>
    match s with
    | [] => none
    | x :: xs => if p x then k xs else none
  | .starCls p, s, k => matchStar p s k
  | .cat r t, s, k => r.matchK s (fun rest => t.matchK rest k)
  | .alt r t, s, k =>
    match r.matchK s k with
    | some rest => some rest
    | none => t.matchK s k
  | .endText, s, k =>
    match s with
    | [] => k []
    | _ :: _ => none
  | .group r, s, k => r.matchK s k

/-- The preferred match of `re` starting exactly at the head of `s`: the text
remaining after it, or `none` when `re` does not match there. -/
def Regex.matchAt (re : Regex) (s : List Char) : Option (List Char) :=
  re.matchK s some

/-- The loop of `Regexp.ReplaceAllString(src, "")`: matches are searched left to
right, the text of every match is dropped and the unmatched text is copied; after
an empty match the search advances by one rune. `fuel` bounds the number of
iterations; `ReplaceAllString` supplies enough. -/
def replaceLoop (re : Regex) : Nat → List Char → List Char
  | 0, s => s
  | _ + 1, [] => []
  | fuel + 1, x :: xs =>
    match re.matchAt (x :: xs) with
    | some rest =>
      if rest.length < (x :: xs).length then replaceLoop re fuel rest
      else x :: replaceLoop re fuel xs
    | none => x :: replaceLoop re fuel xs

/-- The replacement on the runes of the source text, with fuel for one iteration
per rune and one more. -/
def replaceAll (re : Regex) (src : List Char) : List Char :=
  replaceLoop re (src.length + 1) src

/-- Go `re.ReplaceAllString(src, "")`, the only replacement the program makes. -/
def ReplaceAllString (re : Regex) (src : String) : String :=
  ⟨replaceAll re src.data⟩

/-- The class `\s` of Go regular expressions: `[\t\n\f\r ]`. -/
def isPerlSpace (c : Char) : Bool :=
  c = '\t' || c = '\n' || c = Char.ofNat 12 || c = '\r' || c = ' '

/-- The class `[^\s]`. -/
def notPerlSpace (c : Char) : Bool := !isPerlSpace c

/-- The class `.` without the `s` flag: any rune but the line feed. -/
def notNewline (c : Char) : Bool := !(c = '\n')

/-- The pattern compiled in `filterURLs`, `(\?[^\s]*)|(#.*)$`: alternation binds
weakest, so `$` belongs to the second branch only. -/
def paramsRe : Regex :=
  .alt (.group (.cat (.lit '?') (.starCls notPerlSpace)))
    (.cat (.group (.cat (.lit '#') (.starCls notNewline))) .endText)

/-! ## `filepath.Ext` -/

/-- The loop of Go `filepath.Ext`: `n` is `i + 1` for the index `i` about to be
examined, running from the last index down to `0`; it stops with the empty
string at a `/` and with `path[i:]` at a `.`. -/
def extLoop (path : List Char) : Nat → List Char
  | 0 => []
  | i + 1 =>
    match path[i]? with
    | none => []
    | some c =>
      if c = '/' then []
      else if c = '.' then path.drop i
      else extLoop path i

/-- Go `filepath.Ext` (Unix). -/
def Ext (path : String) : String :=
  ⟨extLoop path.data path.data.length⟩

/-! ## `filterURLs` -/

/-- The inner loop of `filterURLs`: `excluded` becomes true at the first
blacklist pattern with `ext == "." + strings.ToLower(pattern)`. -/
def isExcluded (tbl : Char → Char) (ext : String) : List String → Bool
  | [] => false
  | pattern :: rest =>
    if ext = "." ++ ToLower tbl pattern then true else isExcluded tbl ext rest

/-- The string whose extension `filterURLs` examines (`urlWithoutParams`). -/
def urlWithoutParams (url : String) : String :=
  ReplaceAllString paramsRe url

/-- The lower-cased extension `filterURLs` computes for `url` (`ext`). -/
def urlExt (tbl : Char → Char) (url : String) : String :=
  ToLower tbl (Ext (urlWithoutParams url))

/-- Go `filterURLs`: the outer loop appends to `cleanURLs` every URL that the
inner loop did not mark as excluded. -/
def filterURLs (tbl : Char → Char) (urls blacklist : List String) : List String :=
  urls.foldl
    (fun cleanURLs url =>
      if isExcluded tbl (urlExt tbl url) blacklist then cleanURLs else cleanURLs ++ [url])
    []

/-! ## Reading the input: `strings.TrimSpace` and the two readers -/

/-- Go `unicode.IsSpace`: in Latin-1 the runes `\t \n \v \f \r`, space, U+0085
and U+00A0; above Latin-1 the rest of the Unicode `White_Space` table. -/
def IsSpace (r : Char) : Bool :=
  let n := r.toNat
  if n ≤ 255 then
    n = 9 || n = 10 || n = 11 || n = 12 || n = 13 || n = 32 || n = 0x85 || n = 0xA0
  else
    n = 0x1680 || (0x2000 ≤ n && n ≤ 0x200A) || n = 0x2028 || n = 0x2029 ||
      n = 0x202F || n = 0x205F || n = 0x3000

/-- Go `strings.TrimSpace`: the string without its leading and trailing runs of
`unicode.IsSpace` runes. -/
def TrimSpace (s : String) : String :=
  ⟨((s.data.dropWhile IsSpace).reverse.dropWhile IsSpace).reverse⟩

/-- What a `bufio.Scanner` gives to the loop `for scanner.Scan()`: the lines
returned by `scanner.Text()`, in order, and the value of `scanner.Err()` after the
loop (`none` for `nil`; an error for a failed read or a line too long for the
scanner's buffer). -/
structure ScanResult where
  lines : List String
  err : Option String

/-- Go `readURLsFromInput`, over what the scanner of standard input gives: each
line is trimmed and appended unless it is empty; an error of the scanner ends in
`log.Fatalf`, and no list is returned. -/
def readURLsFromInput (stdin : ScanResult) : Except String (List String) :=
  let urls := stdin.lines.foldl
    (fun urls line =>
      let url := TrimSpace line
      if url ≠ "" then urls ++ [url] else urls)
    []
  match stdin.err with
  | some e => .error ("Error reading from stdin: " ++ e)
  | none => .ok urls

/-- Go `readURLsFromFile`, over the result of `os.Open(filePath)` (its error, or
what the scanner of the opened file gives): a failed open ends in `log.Fatalf`;
otherwise the loop and the error check are those of `readURLsFromInput`. -/
def readURLsFromFile (opened : Except String ScanResult) : Except String (List String) :=
  match opened with
  | .error e => .error ("Error opening input file: " ++ e)
  | .ok file =>
    let urls := file.lines.foldl
      (fun urls line =>
        let url := TrimSpace line
        if url ≠ "" then urls ++ [url] else urls)
      []
    match file.err with
    | some e => .error ("Error reading from file: " ++ e)
    | none => .ok urls

/-! ## Reference definitions, written from the specification -/

/-- Specification side: `u` truncated at the first occurrence of `?` or `#`
(plain search, no regular expression); `u` itself when neither occurs. -/
def truncateAtParams (u : String) : String :=
  ⟨u.data.takeWhile (fun c => !(c = '?' || c = '#'))⟩

/-- Specification side: the final `/`-delimited segment of a string. -/
def lastSegment (s : List Char) : List Char :=
  (s.reverse.takeWhile (fun c => !(c = '/'))).reverse

/-- Specification side: the extension of a string, the suffix starting at the
last `.` of its final `/`-delimited segment, empty when that segment has no `.`. -/
def specExt (s : String) : String :=
  if '.' ∈ lastSegment s.data then
    ⟨'.' :: ((lastSegment s.data).reverse.takeWhile (fun c => !(c = '.'))).reverse⟩
  else ""

/-- Specification side: the filter that truncates each URL by plain search and
keeps it unless its lower-cased extension is `"." ++ lower entry` for some
blacklist entry. -/
def filterBySearch (tbl : Char → Char) (urls blacklist : List String) : List String :=
  urls.filter (fun u =>
    !blacklist.any (fun e => ToLower tbl (Ext (truncateAtParams u)) == "." ++ ToLower tbl e))

/-- Specification side: the code points with the Unicode property `White_Space`. -/
def whiteSpaceCodePoints : List Nat :=
  [0x09, 0x0A, 0x0B, 0x0C, 0x0D, 0x20, 0x85, 0xA0, 0x1680, 0x2000, 0x2001, 0x2002, 0x2003,
    0x2004, 0x2005, 0x2006, 0x2007, 0x2008, 0x2009, 0x200A, 0x2028, 0x2029, 0x202F, 0x205F,
    0x3000]

/-- Specification side: the runes to which the code gives a meaning (`.`, `/`,
`?`, `#` and the class `\s`); none of them is a letter. -/
def isDelimiter (c : Char) : Bool :=
  c = '.' || c = '/' || c = '?' || c = '#' || isPerlSpace c

/-- Specification side: two runes that are equal, or that are both free of
meaning for the code and have the same lower case. -/
def caseVariant (tbl : Char → Char) (c d : Char) : Bool :=
  c = d || (!isDelimiter c && !isDelimiter d && toLowerRune tbl c = toLowerRune tbl d)

/-- Specification side: two texts of the same length that differ, position by
position, only in letter case. -/
def sameUpToCase (tbl : Char → Char) : List Char → List Char → Bool
  | [], [] => true
  | c :: s, d :: t => caseVariant tbl c d && sameUpToCase tbl s t
  | _, _ => false

/-- A small stand-in for the Unicode table, used to evaluate examples: it lowers
`É` and the Kelvin sign and leaves every other rune alone. -/
def sampleTable (c : Char) : Char :=
  if c = 'É' then 'é' else if c = Char.ofNat 0x212A then 'k' else c

/-! ## Lists and loops -/

theorem filterURLs_eq_filter (tbl : Char → Char) (urls blacklist : List String) :
    filterURLs tbl urls blacklist =
      urls.filter (fun u => !isExcluded tbl (urlExt tbl u) blacklist) := by
  unfold filterURLs
  suffices h : ∀ acc : List String,
      urls.foldl (fun cleanURLs url =>
        if isExcluded tbl (urlExt tbl url) blacklist then cleanURLs else cleanURLs ++ [url]) acc
        = acc ++ urls.filter (fun u => !isExcluded tbl (urlExt tbl u) blacklist) by
    simpa using h []
  induction urls with
  | nil => intro acc; simp
  | cons u us ih =>
    intro acc
    simp only [List.foldl_cons, List.filter_cons]
    by_cases hx : isExcluded tbl (urlExt tbl u) blacklist = true
    · simp [hx, ih]
    · simp [hx, ih]

theorem isExcluded_iff (tbl : Char → Char) (ext : String) (blacklist : List String) :
    isExcluded tbl ext blacklist = true ↔ ∃ e ∈ blacklist, ext = "." ++ ToLower tbl e := by
  induction blacklist with
  | nil => simp [isExcluded]
  | cons p ps ih =>
    unfold isExcluded
    by_cases h : ext = "." ++ ToLower tbl p
    · simp [h]
    · simp [h, ih]

/-! ## The matcher on the pattern of `filterURLs` -/

theorem matchStar_some (p : Char → Bool) (s : List Char) :
    matchStar p s some = some (s.dropWhile p) := by
  induction s with
  | nil => rfl
  | cons x xs ih =>
    unfold matchStar
    by_cases hp : p x = true
    · simp [hp, ih, List.dropWhile_cons]
    · simp [hp, List.dropWhile_cons]

theorem matchStar_endText (p : Char → Bool) (s : List Char) :
    matchStar p s (fun rest => Regex.matchK .endText rest some) =
      if s.all p then some [] else none := by
  induction s with
  | nil => rfl
  | cons x xs ih =>
    rw [matchStar]
    by_cases hp : p x = true
    · rw [if_pos hp, ih]
      by_cases hall : xs.all p = true
      · simp [hp, hall]
      · simp only [Bool.not_eq_true] at hall
        simp [hp, hall, Regex.matchK]
    · simp [hp, Regex.matchK]

theorem matchAt_question (t : List Char) :
    paramsRe.matchAt ('?' :: t) = some (t.dropWhile notPerlSpace) := by
  simp [Regex.matchAt, paramsRe, Regex.matchK, matchStar_some]

theorem matchAt_hash (t : List Char) :
    paramsRe.matchAt ('#' :: t) = if t.all notNewline then some [] else none := by
  have h := matchStar_endText notNewline t
  simp only [Regex.matchK] at h
  simp only [Regex.matchAt, paramsRe, Regex.matchK]
  rw [h]
  simp

theorem matchAt_other (x : Char) (t : List Char) (hq : x ≠ '?') (hh : x ≠ '#') :
    paramsRe.matchAt (x :: t) = none := by
  simp [Regex.matchAt, paramsRe, Regex.matchK, hq, hh]

/-! ## The replacement loop -/

/-- The loop never runs out of fuel: any two amounts of fuel that are at least
the length of the text give the same result. -/
theorem replaceLoop_fuel (re : Regex) (fuel : Nat) :
    ∀ (fuel' : Nat) (s : List Char), s.length ≤ fuel → s.length ≤ fuel' →
      replaceLoop re fuel s = replaceLoop re fuel' s := by
  induction fuel with
  | zero =>
    intro fuel' s h _
    have hs : s = [] := List.length_eq_zero.mp (Nat.le_zero.mp h)
    subst hs
    cases fuel' <;> rfl
  | succ n ih =>
    intro fuel' s h h'
    cases s with
    | nil => cases fuel' <;> rfl
    | cons x xs =>
      cases fuel' with
      | zero => simp at h'
      | succ m =>
        simp only [List.length_cons, Nat.add_le_add_iff_right] at h h'
        simp only [replaceLoop]
        cases hm : re.matchAt (x :: xs) with
        | none => simp only; rw [ih m xs h h']
        | some rest =>
          simp only
          by_cases hlen : rest.length < (x :: xs).length
          · rw [if_pos hlen, if_pos hlen]
            simp only [List.length_cons] at hlen
            exact ih m rest (by omega) (by omega)
          · rw [if_neg hlen, if_neg hlen, ih m xs h h']

theorem replaceAll_eq (re : Regex) (fuel : Nat) (s : List Char) (h : s.length ≤ fuel) :
    replaceLoop re fuel s = replaceAll re s :=
  replaceLoop_fuel re fuel (s.length + 1) s h (Nat.le_succ _)

theorem replaceAll_nil (re : Regex) : replaceAll re [] = [] := rfl

theorem replaceAll_other (x : Char) (t : List Char) (hq : x ≠ '?') (hh : x ≠ '#') :
    replaceAll paramsRe (x :: t) = x :: replaceAll paramsRe t := by
  show replaceLoop paramsRe (t.length + 1 + 1) (x :: t) = _
  rw [replaceLoop, matchAt_other x t hq hh]
  simp only
  rw [replaceAll_eq paramsRe _ t (Nat.le_succ _)]

theorem replaceAll_question (t : List Char) :
    replaceAll paramsRe ('?' :: t) = replaceAll paramsRe (t.dropWhile notPerlSpace) := by
  have hle : (t.dropWhile notPerlSpace).length ≤ t.length :=
    (List.dropWhile_sublist _).length_le
  show replaceLoop paramsRe (t.length + 1 + 1) ('?' :: t) = _
  rw [replaceLoop, matchAt_question]
  simp only [List.length_cons]
  rw [if_pos (by omega), replaceAll_eq paramsRe _ _ (by omega)]

theorem replaceAll_hash (t : List Char) (h : t.all notNewline = true) :
    replaceAll paramsRe ('#' :: t) = [] := by
  show replaceLoop paramsRe (t.length + 1 + 1) ('#' :: t) = _
  rw [replaceLoop, matchAt_hash, if_pos h]
  simp [replaceLoop]

theorem replaceAll_hash_newline (t : List Char) (h : t.all notNewline = false) :
    replaceAll paramsRe ('#' :: t) = '#' :: replaceAll paramsRe t := by
  show replaceLoop paramsRe (t.length + 1 + 1) ('#' :: t) = _
  rw [replaceLoop, matchAt_hash, if_neg (by simp [h])]
  simp only
  rw [replaceAll_eq paramsRe _ t (Nat.le_succ _)]

theorem replaceAll_append (pre rest : List Char) (hpre : ∀ c ∈ pre, c ≠ '?' ∧ c ≠ '#') :
    replaceAll paramsRe (pre ++ rest) = pre ++ replaceAll paramsRe rest := by
  induction pre with
  | nil => rfl
  | cons x xs ih =>
    have hx := hpre x (List.mem_cons_self x xs)
    rw [List.cons_append, replaceAll_other x _ hx.1 hx.2,
      ih (fun c hc => hpre c (List.mem_cons_of_mem x hc)), List.cons_append]

theorem replaceAll_plain (s : List Char) (hs : ∀ c ∈ s, c ≠ '?' ∧ c ≠ '#') :
    replaceAll paramsRe s = s := by
  have h := replaceAll_append s [] hs
  simpa [replaceAll_nil] using h

theorem takeWhile_plain (s rest : List Char) (x : Char) (hs : ∀ c ∈ s, c ≠ '?' ∧ c ≠ '#')
    (hx : x = '?' ∨ x = '#') :
    (s ++ x :: rest).takeWhile (fun c => !(c = '?' || c = '#')) = s := by
  induction s with
  | nil => rcases hx with rfl | rfl <;> simp
  | cons y ys ih =>
    have hy := hs y (List.mem_cons_self y ys)
    have hf : (!(decide (y = '?') || decide (y = '#'))) = true := by simp [hy.1, hy.2]
    rw [List.cons_append, List.takeWhile_cons, if_pos hf,
      ih (fun c hc => hs c (List.mem_cons_of_mem y hc))]

theorem takeWhile_plain_self (s : List Char) (hs : ∀ c ∈ s, c ≠ '?' ∧ c ≠ '#') :
    s.takeWhile (fun c => !(c = '?' || c = '#')) = s := by
  rw [List.takeWhile_eq_self_iff]
  intro c hc
  simp [(hs c hc).1, (hs c hc).2]

theorem replaceAll_noSpace (s : List Char) (hs : ∀ c ∈ s, isPerlSpace c = false) :
    replaceAll paramsRe s = s.takeWhile (fun c => !(c = '?' || c = '#')) := by
  induction s with
  | nil => rfl
  | cons x t ih =>
    have ht : ∀ c ∈ t, isPerlSpace c = false := fun c hc => hs c (List.mem_cons_of_mem x hc)
    by_cases hq : x = '?'
    · subst hq
      have hd : t.dropWhile notPerlSpace = [] := by
        rw [List.dropWhile_eq_nil_iff]
        intro c hc
        simp [notPerlSpace, ht c hc]
      rw [replaceAll_question, hd]
      simp [replaceAll_nil]
    · by_cases hh : x = '#'
      · subst hh
        have hall : t.all notNewline = true := by
          rw [List.all_eq_true]
          intro c hc
          have := ht c hc
          simp only [isPerlSpace, Bool.or_eq_false_iff, decide_eq_false_iff_not] at this
          simp [notNewline, this.1.1.1.2]
        rw [replaceAll_hash t hall]
        simp
      · rw [replaceAll_other x t hq hh, ih ht]
        simp [hq, hh]

/-! ## `filepath.Ext` -/

theorem extLoop_skip (path : List Char) (n k : Nat)
    (hclean : ∀ i c, n ≤ i → path[i]? = some c → c ≠ '/' ∧ c ≠ '.')
    (hlen : n + k ≤ path.length) :
    extLoop path (n + k) = extLoop path n := by
  induction k with
  | zero => rfl
  | succ k ih =>
    have hlt : n + k < path.length := by omega
    have hget : path[n + k]? = some path[n + k] := List.getElem?_eq_getElem hlt
    have hc := hclean (n + k) _ (Nat.le_add_right n k) hget
    show extLoop path (n + k + 1) = _
    rw [extLoop, hget]
    simp only
    rw [if_neg hc.1, if_neg hc.2]
    exact ih (by omega)

theorem getElem?_after (a b : List Char) (x c : Char) (i : Nat) (hi : a.length + 1 ≤ i)
    (hget : (a ++ x :: b)[i]? = some c) : c ∈ b := by
  rw [List.getElem?_append_right (by omega)] at hget
  obtain ⟨j, hj⟩ : ∃ j, i - a.length = j + 1 := ⟨i - a.length - 1, by omega⟩
  rw [hj, List.getElem?_cons_succ] at hget
  exact List.getElem?_mem hget

theorem extLoop_stop (a b : List Char) (x : Char) (hb : ∀ c ∈ b, c ≠ '/' ∧ c ≠ '.') :
    extLoop (a ++ x :: b) (a ++ x :: b).length = extLoop (a ++ x :: b) (a.length + 1) := by
  have hlen : (a ++ x :: b).length = a.length + 1 + b.length := by
    simp only [List.length_append, List.length_cons]; omega
  rw [hlen]
  apply extLoop_skip
  · intro i c hi hget
    exact hb c (getElem?_after a b x c i hi hget)
  · omega

theorem getElem?_mid (a b : List Char) (x : Char) : (a ++ x :: b)[a.length]? = some x := by
  rw [List.getElem?_append_right (Nat.le_refl _), Nat.sub_self, List.getElem?_cons_zero]

theorem extLoop_dot (a b : List Char) (hb : ∀ c ∈ b, c ≠ '/' ∧ c ≠ '.') :
    extLoop (a ++ '.' :: b) (a ++ '.' :: b).length = '.' :: b := by
  rw [extLoop_stop a b '.' hb, extLoop, getElem?_mid]
  simp

theorem extLoop_slash (a b : List Char) (hb : ∀ c ∈ b, c ≠ '/' ∧ c ≠ '.') :
    extLoop (a ++ '/' :: b) (a ++ '/' :: b).length = [] := by
  rw [extLoop_stop a b '/' hb, extLoop, getElem?_mid]
  simp

theorem extLoop_clean (b : List Char) (hb : ∀ c ∈ b, c ≠ '/' ∧ c ≠ '.') :
    extLoop b b.length = [] := by
  have h := extLoop_skip b 0 b.length
    (fun i c _ hget => hb c (List.getElem?_mem hget)) (by omega)
  rw [Nat.zero_add] at h
  rw [h]
  rfl

theorem ext_decompose (s : List Char) :
    (∀ c ∈ s, c ≠ '/' ∧ c ≠ '.') ∨
      ∃ a x b, s = a ++ x :: b ∧ (x = '/' ∨ x = '.') ∧ ∀ c ∈ b, c ≠ '/' ∧ c ≠ '.' := by
  induction s with
  | nil => left; simp
  | cons y ys ih =>
    rcases ih with hclean | ⟨a, x, b, hs, hx, hb⟩
    · by_cases hy : y = '/' ∨ y = '.'
      · right
        exact ⟨[], y, ys, rfl, hy, hclean⟩
      · left
        intro c hc
        rcases List.mem_cons.mp hc with rfl | hc
        · exact ⟨fun h => hy (Or.inl h), fun h => hy (Or.inr h)⟩
        · exact hclean c hc
    · right
      exact ⟨y :: a, x, b, by rw [hs, List.cons_append], hx, hb⟩

theorem lastSegment_slash (a b : List Char) (hb : ∀ c ∈ b, c ≠ '/' ∧ c ≠ '.') :
    lastSegment (a ++ '/' :: b) = b := by
  unfold lastSegment
  rw [List.reverse_append, List.reverse_cons, List.append_assoc,
    List.takeWhile_append_of_pos (by
      intro c hc
      simp [(hb c (List.mem_reverse.mp hc)).1])]
  simp

theorem lastSegment_dot (a b : List Char) (hb : ∀ c ∈ b, c ≠ '/' ∧ c ≠ '.') :
    lastSegment (a ++ '.' :: b) = lastSegment a ++ '.' :: b := by
  unfold lastSegment
  rw [List.reverse_append, List.reverse_cons, List.append_assoc,
    List.takeWhile_append_of_pos (by
      intro c hc
      simp [(hb c (List.mem_reverse.mp hc)).1])]
  simp

theorem lastSegment_clean (b : List Char) (hb : ∀ c ∈ b, c ≠ '/' ∧ c ≠ '.') :
    lastSegment b = b := by
  unfold lastSegment
  rw [List.takeWhile_eq_self_iff.mpr (by
    intro c hc
    simp [(hb c (List.mem_reverse.mp hc)).1])]
  simp

theorem Ext_eq_specExt (s : String) : Ext s = specExt s := by
  unfold Ext specExt
  rcases ext_decompose s.data with hclean | ⟨a, x, b, hs, hx, hb⟩
  · rw [extLoop_clean _ hclean, lastSegment_clean _ hclean,
      if_neg (fun h => (hclean _ h).2 rfl)]
  · rcases hx with rfl | rfl
    · rw [hs, extLoop_slash a b hb, lastSegment_slash a b hb,
        if_neg (fun h => (hb _ h).2 rfl)]
    · rw [hs, extLoop_dot a b hb, lastSegment_dot a b hb, if_pos (by simp)]
      congr 2
      rw [List.reverse_append, List.reverse_cons, List.append_assoc,
        List.takeWhile_append_of_pos (by
          intro c hc
          simp [(hb c (List.mem_reverse.mp hc)).2])]
      simp

theorem Ext_shape (s : String) :
    Ext s = "" ∨ ∃ b : List Char, Ext s = ⟨'.' :: b⟩ ∧ ∀ c ∈ b, c ≠ '/' ∧ c ≠ '.' := by
  unfold Ext
  rcases ext_decompose s.data with hclean | ⟨a, x, b, hs, hx, hb⟩
  · left; rw [extLoop_clean _ hclean]
  · rcases hx with rfl | rfl
    · left; rw [hs, extLoop_slash a b hb]
    · right; exact ⟨b, by rw [hs, extLoop_dot a b hb], hb⟩

/-! ## The keep/drop decision -/

theorem mem_filterURLs (tbl : Char → Char) (urls blacklist : List String) (u : String) :
    u ∈ filterURLs tbl urls blacklist ↔
      u ∈ urls ∧ ∀ e ∈ blacklist, urlExt tbl u ≠ "." ++ ToLower tbl e := by
  rw [filterURLs_eq_filter, List.mem_filter]
  have h := isExcluded_iff tbl (urlExt tbl u) blacklist
  constructor
  · rintro ⟨hu, hk⟩
    refine ⟨hu, fun e he heq => ?_⟩
    have hex : isExcluded tbl (urlExt tbl u) blacklist = true := h.mpr ⟨e, he, heq⟩
    simp [hex] at hk
  · rintro ⟨hu, hk⟩
    refine ⟨hu, ?_⟩
    cases hex : isExcluded tbl (urlExt tbl u) blacklist with
    | false => rfl
    | true =>
      obtain ⟨e, he, heq⟩ := h.mp hex
      exact absurd heq (hk e he)

theorem dot_append_ne_empty (s : String) : ("" : String) ≠ "." ++ s := by
  intro h
  have := congrArg String.length h
  simp [String.length_append] at this
  have h1 : ("." : String).length = 1 := rfl
  have h0 : ("" : String).length = 0 := rfl
  omega

theorem ToLower_dot_append (tbl : Char → Char) (s : String) :
    ToLower tbl ("." ++ s) = "." ++ ToLower tbl s := by
  apply String.ext
  simp [ToLower, String.data_append]
  rfl

theorem ToLower_eq_empty (tbl : Char → Char) (s : String) : ToLower tbl s = "" ↔ s = "" := by
  constructor
  · intro h
    have hd : (ToLower tbl s).data = [] := by rw [h]
    apply String.ext
    simpa [ToLower] using hd
  · rintro rfl
    rfl

theorem dot_append_eq_dot (s : String) : ("." : String) = "." ++ s ↔ s = "" := by
  constructor
  · intro h
    have hd := congrArg String.data h
    rw [String.data_append] at hd
    apply String.ext
    have h1 : ("." : String).data = ['.'] := rfl
    rw [h1] at hd
    simpa using hd
  · rintro rfl
    rfl

theorem replaceAll_question_eq_nil_iff (t : List Char) :
    replaceAll paramsRe ('?' :: t) = [] ↔ ∀ c ∈ t, isPerlSpace c = false := by
  rw [replaceAll_question]
  constructor
  · intro h
    have hd : t.dropWhile notPerlSpace = [] := by
      cases hdw : t.dropWhile notPerlSpace with
      | nil => rfl
      | cons w r =>
        have hw : ¬ (notPerlSpace w = true) := by
          have := List.head?_dropWhile_not notPerlSpace t
          rw [hdw] at this
          simpa using this
        have hwq : w ≠ '?' := by
          rintro rfl
          exact hw (by decide)
        have hwh : w ≠ '#' := by
          rintro rfl
          exact hw (by decide)
        rw [hdw, replaceAll_other w r hwq hwh] at h
        exact absurd h (List.cons_ne_nil _ _)
    intro c hc
    have := (List.dropWhile_eq_nil_iff.mp hd) c hc
    simpa [notPerlSpace] using this
  · intro h
    have hd : t.dropWhile notPerlSpace = [] := by
      rw [List.dropWhile_eq_nil_iff]
      intro c hc
      simp [notPerlSpace, h c hc]
    rw [hd, replaceAll_nil]

theorem all_notNewline_iff (t : List Char) : t.all notNewline = true ↔ '\n' ∉ t := by
  rw [List.all_eq_true]
  constructor
  · intro h hmem
    have := h _ hmem
    simp [notNewline] at this
  · intro h c hc
    have hne : c ≠ '\n' := fun heq => h (heq ▸ hc)
    simp [notNewline, hne]

theorem replaceAll_hash_eq_nil_iff (t : List Char) :
    replaceAll paramsRe ('#' :: t) = [] ↔ '\n' ∉ t := by
  rw [← all_notNewline_iff]
  constructor
  · intro h
    by_contra hall
    simp only [Bool.not_eq_true] at hall
    rw [replaceAll_hash_newline t hall] at h
    exact absurd h (List.cons_ne_nil _ _)
  · exact replaceAll_hash t

theorem urlWithoutParams_append (pre : String) (rest : List Char)
    (hpre : ∀ c ∈ pre.data, c ≠ '?' ∧ c ≠ '#') :
    urlWithoutParams ⟨pre.data ++ rest⟩ = ⟨pre.data ++ replaceAll paramsRe rest⟩ := by
  apply String.ext
  show replaceAll paramsRe (pre.data ++ rest) = _
  rw [replaceAll_append _ _ hpre]

theorem append_hash_data (pre t : String) :
    pre ++ "#" ++ t = ⟨pre.data ++ '#' :: t.data⟩ := by
  apply String.ext
  simp [String.data_append]

theorem append_question_data (pre t : String) :
    pre ++ "?" ++ t = ⟨pre.data ++ '?' :: t.data⟩ := by
  apply String.ext
  simp [String.data_append]

/-- Every text is free of `?` and `#`, or is `pre ++ x :: t` with `x` its first
`?` or `#`. -/
theorem params_decompose (s : List Char) :
    (∀ c ∈ s, c ≠ '?' ∧ c ≠ '#') ∨
      ∃ pre x t, s = pre ++ x :: t ∧ (x = '?' ∨ x = '#') ∧ ∀ c ∈ pre, c ≠ '?' ∧ c ≠ '#' := by
  induction s with
  | nil => left; simp
  | cons y ys ih =>
    by_cases hy : y = '?' ∨ y = '#'
    · right
      exact ⟨[], y, ys, rfl, hy, by simp⟩
    · have hy2 : y ≠ '?' ∧ y ≠ '#' := ⟨fun h => hy (Or.inl h), fun h => hy (Or.inr h)⟩
      rcases ih with hplain | ⟨pre, x, t, hs, hx, hpre⟩
      · left
        intro c hc
        rcases List.mem_cons.mp hc with rfl | hc
        · exact hy2
        · exact hplain c hc
      · right
        refine ⟨y :: pre, x, t, by rw [hs, List.cons_append], hx, ?_⟩
        intro c hc
        rcases List.mem_cons.mp hc with rfl | hc
        · exact hy2
        · exact hpre c hc

theorem mk_append_eq_self (pre : String) (x : List Char) :
    (⟨pre.data ++ x⟩ : String) = pre ↔ x = [] := by
  constructor
  · intro h
    have hd := congrArg String.data h
    simpa using hd
  · rintro rfl
    apply String.ext
    simp

theorem isExcluded_eq_any (tbl : Char → Char) (ext : String) (blacklist : List String) :
    isExcluded tbl ext blacklist = blacklist.any (fun e => ext == "." ++ ToLower tbl e) := by
  induction blacklist with
  | nil => rfl
  | cons p ps ih =>
    unfold isExcluded
    by_cases h : ext = "." ++ ToLower tbl p
    · simp [h]
    · simp [h, ih]

/-! ## Lower-casing and the delimiters of an extension -/

theorem toLowerRune_upper_ne (n : Nat) (h1 : 65 ≤ n) (h2 : n ≤ 90) :
    Char.ofNat (n + 32) ≠ '/' ∧ Char.ofNat (n + 32) ≠ '.' := by
  interval_cases n <;> decide

theorem toLowerRune_clean (tbl : Char → Char)
    (htbl : ∀ c : Char, 127 < c.toNat → tbl c ≠ '.' ∧ tbl c ≠ '/')
    (c : Char) (hc : c ≠ '/' ∧ c ≠ '.') :
    toLowerRune tbl c ≠ '/' ∧ toLowerRune tbl c ≠ '.' := by
  unfold toLowerRune
  by_cases hascii : c.toNat ≤ 127
  · rw [if_pos hascii]
    by_cases hup : 65 ≤ c.toNat ∧ c.toNat ≤ 90
    · rw [if_pos hup]
      exact toLowerRune_upper_ne c.toNat hup.1 hup.2
    · rw [if_neg hup]
      exact hc
  · rw [if_neg hascii]
    have := htbl c (by omega)
    exact ⟨this.2, this.1⟩

theorem ToLower_ext_ne_dotted (tbl : Char → Char)
    (htbl : ∀ c : Char, 127 < c.toNat → tbl c ≠ '.' ∧ tbl c ≠ '/')
    (s e : String) (he : '.' ∈ e.data ∨ '/' ∈ e.data) :
    ToLower tbl (Ext s) ≠ "." ++ ToLower tbl e := by
  rcases Ext_shape s with h0 | ⟨b, hb, hclean⟩
  · rw [h0]
    exact dot_append_ne_empty _
  · rw [hb]
    intro heq
    have hd := congrArg String.data heq
    rw [String.data_append] at hd
    have h1 : ("." : String).data = ['.'] := rfl
    simp only [ToLower, List.map_cons, h1, List.singleton_append, List.cons.injEq] at hd
    have hmem : ∀ x, x ∈ e.data → toLowerRune tbl x ∈ b.map (toLowerRune tbl) := by
      intro x hx
      rw [hd.2]
      exact List.mem_map_of_mem _ hx
    rcases he with hx | hx
    · obtain ⟨c, hcb, hceq⟩ := List.mem_map.mp (hmem _ hx)
      have hfix : toLowerRune tbl '.' = '.' := rfl
      rw [hfix] at hceq
      exact (toLowerRune_clean tbl htbl c (hclean c hcb)).2 hceq
    · obtain ⟨c, hcb, hceq⟩ := List.mem_map.mp (hmem _ hx)
      have hfix : toLowerRune tbl '/' = '/' := rfl
      rw [hfix] at hceq
      exact (toLowerRune_clean tbl htbl c (hclean c hcb)).1 hceq

theorem isExcluded_filter_dotted (tbl : Char → Char)
    (htbl : ∀ c : Char, 127 < c.toNat → tbl c ≠ '.' ∧ tbl c ≠ '/')
    (s : String) (blacklist : List String) :
    isExcluded tbl (ToLower tbl (Ext s))
        (blacklist.filter (fun e => !(decide ('.' ∈ e.data) || decide ('/' ∈ e.data)))) =
      isExcluded tbl (ToLower tbl (Ext s)) blacklist := by
  induction blacklist with
  | nil => rfl
  | cons p ps ih =>
    by_cases hp : '.' ∈ p.data ∨ '/' ∈ p.data
    · have hf : (!(decide ('.' ∈ p.data) || decide ('/' ∈ p.data))) = false := by
        rcases hp with h | h <;> simp [h]
      rw [List.filter_cons_of_neg (by simp [hf]), ih]
      conv_rhs => rw [isExcluded]
      rw [if_neg (ToLower_ext_ne_dotted tbl htbl s p hp)]
    · simp only [not_or] at hp
      rw [List.filter_cons_of_pos (by simp [hp.1, hp.2])]
      rw [isExcluded, isExcluded, ih]

/-! ## `strings.TrimSpace` -/

theorem dropWhile_head_false {p : Char → Bool} {l : List Char} {c : Char}
    (h : (l.dropWhile p).head? = some c) : p c = false := by
  have := List.head?_dropWhile_not p l
  rw [h] at this
  exact this

theorem dropWhile_getLast {p : Char → Bool} {l : List Char} {c : Char}
    (h : (l.dropWhile p).getLast? = some c) : l.getLast? = some c := by
  have hl : l = l.takeWhile p ++ l.dropWhile p := (List.takeWhile_append_dropWhile p l).symm
  rw [hl, List.getLast?_append, h]
  rfl

theorem TrimSpace_head (s : String) (c : Char) (h : (TrimSpace s).data.head? = some c) :
    IsSpace c = false := by
  simp only [TrimSpace, List.head?_reverse] at h
  have h2 := dropWhile_getLast h
  rw [List.getLast?_reverse] at h2
  exact dropWhile_head_false h2

theorem TrimSpace_last (s : String) (c : Char) (h : (TrimSpace s).data.getLast? = some c) :
    IsSpace c = false := by
  simp only [TrimSpace, List.getLast?_reverse] at h
  exact dropWhile_head_false h

theorem readLoop_eq (lines : List String) :
    lines.foldl
        (fun urls line =>
          let url := TrimSpace line
          if url ≠ "" then urls ++ [url] else urls) []
      = (lines.map TrimSpace).filter (fun u => decide (u ≠ "")) := by
  suffices h : ∀ acc : List String,
      lines.foldl
          (fun urls line =>
            let url := TrimSpace line
            if url ≠ "" then urls ++ [url] else urls) acc
        = acc ++ (lines.map TrimSpace).filter (fun u => decide (u ≠ "")) by
    simpa using h []
  induction lines with
  | nil => intro acc; simp
  | cons l ls ih =>
    intro acc
    rw [List.foldl_cons, ih]
    by_cases hl : TrimSpace l = ""
    · simp [hl]
    · simp [hl]

/-! ## Texts that differ only in letter case -/

theorem caseVariant_delim {tbl : Char → Char} {c d : Char} (h : caseVariant tbl c d = true)
    (hd : isDelimiter c = true ∨ isDelimiter d = true) : c = d := by
  simp only [caseVariant, Bool.or_eq_true, Bool.and_eq_true, decide_eq_true_eq,
    Bool.not_eq_true'] at h
  rcases h with h | ⟨⟨hc, hd'⟩, _⟩
  · exact h
  · rcases hd with hd | hd
    · rw [hc] at hd; exact absurd hd (by decide)
    · rw [hd'] at hd; exact absurd hd (by decide)

theorem caseVariant_lower {tbl : Char → Char} {c d : Char} (h : caseVariant tbl c d = true) :
    toLowerRune tbl c = toLowerRune tbl d := by
  simp only [caseVariant, Bool.or_eq_true, Bool.and_eq_true, decide_eq_true_eq] at h
  rcases h with h | ⟨_, h⟩
  · rw [h]
  · exact h

theorem caseVariant_refl (tbl : Char → Char) (c : Char) : caseVariant tbl c c = true := by
  simp [caseVariant]

theorem caseVariant_eq_iff {tbl : Char → Char} {c d : Char} (h : caseVariant tbl c d = true)
    (x : Char) (hx : isDelimiter x = true) : c = x ↔ d = x := by
  constructor
  · rintro rfl
    exact (caseVariant_delim h (Or.inl hx)).symm
  · rintro rfl
    exact caseVariant_delim h (Or.inr hx)

theorem caseVariant_perlSpace {tbl : Char → Char} {c d : Char}
    (h : caseVariant tbl c d = true) : notPerlSpace c = notPerlSpace d := by
  by_cases hc : isPerlSpace c = true
  · have : c = d := caseVariant_delim h (Or.inl (by simp [isDelimiter, hc]))
    rw [this]
  · by_cases hd : isPerlSpace d = true
    · have : c = d := caseVariant_delim h (Or.inr (by simp [isDelimiter, hd]))
      rw [this]
    · simp only [Bool.not_eq_true] at hc hd
      simp [notPerlSpace, hc, hd]

theorem caseVariant_newline {tbl : Char → Char} {c d : Char}
    (h : caseVariant tbl c d = true) : notNewline c = notNewline d := by
  have := caseVariant_eq_iff h '\n' (by decide)
  by_cases hc : c = '\n'
  · have hd := this.mp hc
    rw [hc, hd]
  · have hd : d ≠ '\n' := fun hd => hc (this.mpr hd)
    simp [notNewline, hc, hd]

theorem sameUpToCase_dropWhile (tbl : Char → Char) (q : Char → Bool)
    (hq : ∀ c d, caseVariant tbl c d = true → q c = q d) :
    ∀ s t : List Char, sameUpToCase tbl s t = true →
      sameUpToCase tbl (s.dropWhile q) (t.dropWhile q) = true := by
  intro s
  induction s with
  | nil =>
    intro t h
    cases t with
    | nil => rfl
    | cons d t => simp [sameUpToCase] at h
  | cons c s ih =>
    intro t h
    cases t with
    | nil => simp [sameUpToCase] at h
    | cons d t =>
      have h' := h
      simp only [sameUpToCase, Bool.and_eq_true] at h'
      have hqq := hq c d h'.1
      by_cases hc : q c = true
      · rw [List.dropWhile_cons_of_pos hc, List.dropWhile_cons_of_pos (hqq ▸ hc)]
        exact ih t h'.2
      · rw [List.dropWhile_cons_of_neg hc, List.dropWhile_cons_of_neg (hqq ▸ hc)]
        exact h

theorem sameUpToCase_all (tbl : Char → Char) (q : Char → Bool)
    (hq : ∀ c d, caseVariant tbl c d = true → q c = q d) :
    ∀ s t : List Char, sameUpToCase tbl s t = true → s.all q = t.all q := by
  intro s
  induction s with
  | nil =>
    intro t h
    cases t with
    | nil => rfl
    | cons d t => simp [sameUpToCase] at h
  | cons c s ih =>
    intro t h
    cases t with
    | nil => simp [sameUpToCase] at h
    | cons d t =>
      simp only [sameUpToCase, Bool.and_eq_true] at h
      rw [List.all_cons, List.all_cons, hq c d h.1, ih t h.2]

theorem sameUpToCase_replaceAll (tbl : Char → Char) (n : Nat) :
    ∀ s t : List Char, s.length ≤ n → sameUpToCase tbl s t = true →
      sameUpToCase tbl (replaceAll paramsRe s) (replaceAll paramsRe t) = true := by
  induction n with
  | zero =>
    intro s t hlen h
    have hs : s = [] := List.length_eq_zero.mp (Nat.le_zero.mp hlen)
    subst hs
    cases t with
    | nil => rfl
    | cons d t => simp [sameUpToCase] at h
  | succ m ih =>
    intro s t hlen h
    cases s with
    | nil =>
      cases t with
      | nil => rfl
      | cons d t => simp [sameUpToCase] at h
    | cons c s =>
      cases t with
      | nil => simp [sameUpToCase] at h
      | cons d t =>
        have h' := h
        simp only [sameUpToCase, Bool.and_eq_true] at h'
        simp only [List.length_cons, Nat.add_le_add_iff_right] at hlen
        have hq := caseVariant_eq_iff h'.1 '?' (by decide)
        have hh := caseVariant_eq_iff h'.1 '#' (by decide)
        by_cases hcq : c = '?'
        · have hdq := hq.mp hcq
          subst hcq hdq
          rw [replaceAll_question, replaceAll_question]
          apply ih
          · exact Nat.le_trans (List.dropWhile_sublist _).length_le hlen
          · exact sameUpToCase_dropWhile tbl notPerlSpace
              (fun _ _ hcd => caseVariant_perlSpace hcd) s t h'.2
        · by_cases hch : c = '#'
          · have hdh := hh.mp hch
            subst hch hdh
            have hall := sameUpToCase_all tbl notNewline
              (fun _ _ hcd => caseVariant_newline hcd) s t h'.2
            cases hs : s.all notNewline with
            | true =>
              rw [replaceAll_hash s hs, replaceAll_hash t (hall ▸ hs)]
              rfl
            | false =>
              rw [replaceAll_hash_newline s hs, replaceAll_hash_newline t (hall ▸ hs)]
              simp only [sameUpToCase, Bool.and_eq_true]
              exact ⟨caseVariant_refl tbl _, ih s t hlen h'.2⟩
          · have hdq : d ≠ '?' := fun hd => hcq (hq.mpr hd)
            have hdh : d ≠ '#' := fun hd => hch (hh.mpr hd)
            rw [replaceAll_other c s hcq hch, replaceAll_other d t hdq hdh]
            simp only [sameUpToCase, Bool.and_eq_true]
            exact ⟨h'.1, ih s t hlen h'.2⟩

theorem sameUpToCase_getElem? (tbl : Char → Char) :
    ∀ (s t : List Char), sameUpToCase tbl s t = true → ∀ i : Nat,
      (s[i]? = none ∧ t[i]? = none) ∨
        ∃ c d, s[i]? = some c ∧ t[i]? = some d ∧ caseVariant tbl c d = true := by
  intro s
  induction s with
  | nil =>
    intro t h i
    cases t with
    | nil => left; simp
    | cons d t => simp [sameUpToCase] at h
  | cons c s ih =>
    intro t h i
    cases t with
    | nil => simp [sameUpToCase] at h
    | cons d t =>
      simp only [sameUpToCase, Bool.and_eq_true] at h
      cases i with
      | zero => right; exact ⟨c, d, by simp, by simp, h.1⟩
      | succ j =>
        simp only [List.getElem?_cons_succ]
        exact ih t h.2 j

theorem sameUpToCase_drop (tbl : Char → Char) :
    ∀ (n : Nat) (s t : List Char), sameUpToCase tbl s t = true →
      sameUpToCase tbl (s.drop n) (t.drop n) = true := by
  intro n
  induction n with
  | zero => intro s t h; simpa using h
  | succ m ih =>
    intro s t h
    cases s with
    | nil =>
      cases t with
      | nil => rfl
      | cons d t => simp [sameUpToCase] at h
    | cons c s =>
      cases t with
      | nil => simp [sameUpToCase] at h
      | cons d t =>
        simp only [sameUpToCase, Bool.and_eq_true] at h
        simp only [List.drop_succ_cons]
        exact ih s t h.2

theorem sameUpToCase_length (tbl : Char → Char) :
    ∀ (s t : List Char), sameUpToCase tbl s t = true → s.length = t.length := by
  intro s
  induction s with
  | nil =>
    intro t h
    cases t with
    | nil => rfl
    | cons d t => simp [sameUpToCase] at h
  | cons c s ih =>
    intro t h
    cases t with
    | nil => simp [sameUpToCase] at h
    | cons d t =>
      simp only [sameUpToCase, Bool.and_eq_true] at h
      simp [ih t h.2]

theorem sameUpToCase_map (tbl : Char → Char) :
    ∀ (s t : List Char), sameUpToCase tbl s t = true →
      s.map (toLowerRune tbl) = t.map (toLowerRune tbl) := by
  intro s
  induction s with
  | nil =>
    intro t h
    cases t with
    | nil => rfl
    | cons d t => simp [sameUpToCase] at h
  | cons c s ih =>
    intro t h
    cases t with
    | nil => simp [sameUpToCase] at h
    | cons d t =>
      simp only [sameUpToCase, Bool.and_eq_true] at h
      rw [List.map_cons, List.map_cons, caseVariant_lower h.1, ih t h.2]

theorem sameUpToCase_extLoop (tbl : Char → Char) (s t : List Char)
    (h : sameUpToCase tbl s t = true) (n : Nat) :
    sameUpToCase tbl (extLoop s n) (extLoop t n) = true := by
  induction n with
  | zero => rfl
  | succ i ih =>
    rw [extLoop, extLoop]
    rcases sameUpToCase_getElem? tbl s t h i with ⟨hs, ht⟩ | ⟨c, d, hs, ht, hcd⟩
    · rw [hs, ht]
      rfl
    · rw [hs, ht]
      simp only
      have hsl := caseVariant_eq_iff hcd '/' (by decide)
      have hdot := caseVariant_eq_iff hcd '.' (by decide)
      by_cases hc : c = '/'
      · rw [if_pos hc, if_pos (hsl.mp hc)]
        rfl
      · rw [if_neg hc, if_neg (fun hd => hc (hsl.mpr hd))]
        by_cases hc2 : c = '.'
        · rw [if_pos hc2, if_pos (hdot.mp hc2)]
          exact sameUpToCase_drop tbl i s t h
        · rw [if_neg hc2, if_neg (fun hd => hc2 (hdot.mpr hd))]
          exact ih

theorem urlExt_sameUpToCase (tbl : Char → Char) (u v : String)
    (h : sameUpToCase tbl u.data v.data = true) : urlExt tbl u = urlExt tbl v := by
  have hstrip : sameUpToCase tbl (replaceAll paramsRe u.data) (replaceAll paramsRe v.data) = true :=
    sameUpToCase_replaceAll tbl u.data.length u.data v.data (Nat.le_refl _) h
  have hlen := sameUpToCase_length tbl _ _ hstrip
  have hext := sameUpToCase_extLoop tbl _ _ hstrip (replaceAll paramsRe u.data).length
  apply String.ext
  show (extLoop (replaceAll paramsRe u.data) (replaceAll paramsRe u.data).length).map
      (toLowerRune tbl) =
    (extLoop (replaceAll paramsRe v.data) (replaceAll paramsRe v.data).length).map
      (toLowerRune tbl)
  rw [← hlen]
  exact sameUpToCase_map tbl _ _ hext

/-! ## The claims about `filterURLs` -/

/-- C1, as the code has it: a URL of the input that has no rune of `\s` (tab,
line feed, form feed, carriage return, space) is dropped by `filterURLs` exactly
when its extension (the suffix from the last `.` of the final `/`-delimited
segment of the URL truncated at its first `?` or `#`, lower-cased, empty without
such a `.`) is equal to `"." ++ lower entry` for some blacklist entry, and is
retained otherwise. For every URL of the input the same holds with the string
the code examines (the result of its regular-expression replacement) in place of
the truncation. Equality is exact: `["js"]` keeps URLs ending in `.json` and
`.mjs`; and blacklist `["png","js"]` maps the three URLs of scenario 1 to the one
with `.html`. -/
theorem filterURLs_drops_iff_extension_listed (tbl : Char → Char) :
    (∀ (urls blacklist : List String) (u : String), u ∈ urls →
      (((∀ c ∈ u.data, isPerlSpace c = false) →
          ((u ∉ filterURLs tbl urls blacklist ↔
              ∃ e ∈ blacklist,
                ToLower tbl (specExt (truncateAtParams u)) = "." ++ ToLower tbl e) ∧
            (u ∈ filterURLs tbl urls blacklist ↔
              ∀ e ∈ blacklist,
                ToLower tbl (specExt (truncateAtParams u)) ≠ "." ++ ToLower tbl e))) ∧
        (u ∉ filterURLs tbl urls blacklist ↔
          ∃ e ∈ blacklist,
            ToLower tbl (specExt (urlWithoutParams u)) = "." ++ ToLower tbl e) ∧
        (u ∈ filterURLs tbl urls blacklist ↔
          ∀ e ∈ blacklist,
            ToLower tbl (specExt (urlWithoutParams u)) ≠ "." ++ ToLower tbl e))) ∧
      filterURLs tbl ["http://a.com/data.json", "http://a.com/mod.mjs"] ["js"] =
        ["http://a.com/data.json", "http://a.com/mod.mjs"] ∧
      filterURLs tbl
          ["http://a.com/x.png", "http://a.com/y.html", "http://a.com/z.PNG?v=2"]
          ["png", "js"] =
        ["http://a.com/y.html"] := by
  refine ⟨?_, rfl, rfl⟩
  intro urls blacklist u hu
  have hmem := mem_filterURLs tbl urls blacklist u
  unfold urlExt at hmem
  rw [Ext_eq_specExt] at hmem
  have hdrop : u ∉ filterURLs tbl urls blacklist ↔
      ∃ e ∈ blacklist,
        ToLower tbl (specExt (urlWithoutParams u)) = "." ++ ToLower tbl e := by
    rw [hmem]
    constructor
    · intro h
      by_contra hne
      exact h ⟨hu, fun e he heq => hne ⟨e, he, heq⟩⟩
    · rintro ⟨e, he, heq⟩ ⟨_, hk⟩
      exact hk e he heq
  have hkeep : u ∈ filterURLs tbl urls blacklist ↔
      ∀ e ∈ blacklist,
        ToLower tbl (specExt (urlWithoutParams u)) ≠ "." ++ ToLower tbl e := by
    rw [hmem]
    exact ⟨fun h => h.2, fun h => ⟨hu, h⟩⟩
  refine ⟨?_, hdrop, hkeep⟩
  intro hws
  have hstrip : urlWithoutParams u = truncateAtParams u :=
    String.ext (replaceAll_noSpace u.data hws)
  rw [← hstrip]
  exact ⟨hdrop, hkeep⟩

/-- C1, at a concrete input: `z.PNG?v=2` occurs in the list, has no white space,
and is dropped, the lower-cased extension of its truncation being `"." ++ "png"`. -/
theorem filterURLs_drops_iff_extension_listed_witness :
    "http://a.com/z.PNG?v=2" ∈ ["http://a.com/y.html", "http://a.com/z.PNG?v=2"] ∧
      (∀ c ∈ ("http://a.com/z.PNG?v=2" : String).data, isPerlSpace c = false) ∧
      ("http://a.com/z.PNG?v=2" ∉
          filterURLs sampleTable ["http://a.com/y.html", "http://a.com/z.PNG?v=2"] ["png", "js"] ↔
        ∃ e ∈ ["png", "js"],
          ToLower sampleTable (specExt (truncateAtParams "http://a.com/z.PNG?v=2")) =
            "." ++ ToLower sampleTable e) ∧
      ToLower sampleTable (specExt (truncateAtParams "http://a.com/z.PNG?v=2")) = ".png" :=
  ⟨by decide, by decide,
    (((filterURLs_drops_iff_extension_listed sampleTable).1 _ _ _ (by decide)).1
      (by decide)).1,
    by decide⟩

/-- C1 fails as stated: the line `http://a.com/x.png?q=a b.html` reaches
`filterURLs` unchanged; truncated at its first `?` it is `http://a.com/x.png`,
whose extension is `"." ++ "png"`, and yet under the blacklist `["png"]` the URL
is retained, whatever the Unicode table. -/
theorem filterURLs_drops_iff_extension_listed_counterexample :
    readURLsFromInput ⟨["http://a.com/x.png?q=a b.html"], none⟩ =
        .ok ["http://a.com/x.png?q=a b.html"] ∧
      specExt (truncateAtParams "http://a.com/x.png?q=a b.html") = ".png" ∧
      (∀ tbl : Char → Char,
        ToLower tbl (specExt (truncateAtParams "http://a.com/x.png?q=a b.html")) =
          "." ++ ToLower tbl "png") ∧
      (∀ tbl : Char → Char,
        "http://a.com/x.png?q=a b.html" ∈
          filterURLs tbl ["http://a.com/x.png?q=a b.html"] ["png"]) :=
  ⟨rfl, by decide, fun _ => rfl,
    fun tbl => by
      have h : filterURLs tbl ["http://a.com/x.png?q=a b.html"] ["png"] =
          ["http://a.com/x.png?q=a b.html"] := rfl
      rw [h]
      exact List.mem_singleton.mpr rfl⟩

/-- C7: `filterURLs` is idempotent for a fixed blacklist. -/
theorem filterURLs_idempotent (tbl : Char → Char) (urls blacklist : List String) :
    filterURLs tbl (filterURLs tbl urls blacklist) blacklist =
      filterURLs tbl urls blacklist := by
  rw [filterURLs_eq_filter tbl (filterURLs tbl urls blacklist), filterURLs_eq_filter,
    List.filter_filter]
  simp

/-- C5, as the code has it: a URL of the input without any rune of `\s` whose
truncation at the first `?` or `#` has no `.` in its final `/`-delimited segment
has the empty extension and is retained under every blacklist; dots in the host
or in earlier segments do not count. For every URL of the input the same holds
when it is the string the code examines (the result of its regular-expression
replacement) that has no `.` in its final segment. -/
theorem filterURLs_keeps_dotless (tbl : Char → Char) (urls blacklist : List String)
    (u : String) (hu : u ∈ urls) :
    ((∀ c ∈ u.data, isPerlSpace c = false) →
        '.' ∉ lastSegment (truncateAtParams u).data →
        urlExt tbl u = "" ∧ u ∈ filterURLs tbl urls blacklist) ∧
      ('.' ∉ lastSegment (urlWithoutParams u).data →
        urlExt tbl u = "" ∧ u ∈ filterURLs tbl urls blacklist) := by
  have hgen : '.' ∉ lastSegment (urlWithoutParams u).data →
      urlExt tbl u = "" ∧ u ∈ filterURLs tbl urls blacklist := by
    intro hdot
    have hext : urlExt tbl u = "" := by
      unfold urlExt
      rw [Ext_eq_specExt, specExt, if_neg hdot]
      rfl
    refine ⟨hext, (mem_filterURLs tbl urls blacklist u).mpr ⟨hu, ?_⟩⟩
    intro e _
    rw [hext]
    exact dot_append_ne_empty _
  refine ⟨?_, hgen⟩
  intro hws hdot
  have hstrip : urlWithoutParams u = truncateAtParams u :=
    String.ext (replaceAll_noSpace u.data hws)
  exact hgen (hstrip ▸ hdot)

/-- C5, at `http://a.com/v1.2/file?v=1.5`: the dots of the host, of `v1.2` and of
the query give no extension, so even the entries `2/file`, `com`, `file` and `5`
do not drop it. -/
theorem filterURLs_keeps_dotless_witness :
    "http://a.com/v1.2/file?v=1.5" ∈ ["http://a.com/v1.2/file?v=1.5"] ∧
      (∀ c ∈ ("http://a.com/v1.2/file?v=1.5" : String).data, isPerlSpace c = false) ∧
      '.' ∉ lastSegment (truncateAtParams "http://a.com/v1.2/file?v=1.5").data ∧
      urlExt sampleTable "http://a.com/v1.2/file?v=1.5" = "" ∧
      "http://a.com/v1.2/file?v=1.5" ∈
        filterURLs sampleTable ["http://a.com/v1.2/file?v=1.5"] ["2/file", "com", "file", "5"] :=
  ⟨by decide, by decide, by decide,
    (filterURLs_keeps_dotless sampleTable ["http://a.com/v1.2/file?v=1.5"]
      ["2/file", "com", "file", "5"] "http://a.com/v1.2/file?v=1.5" (by decide)).1
      (by decide) (by decide)⟩

/-- C5 fails as stated: the line `http://a.com/file?q=a b.png` reaches
`filterURLs` unchanged; truncated at its first `?` it is `http://a.com/file`, with
no `.` in its final segment, and yet under the blacklist `["png"]` the URL is
dropped, whatever the Unicode table: the string examined is
`http://a.com/file b.png`. -/
theorem filterURLs_keeps_dotless_counterexample :
    readURLsFromInput ⟨["http://a.com/file?q=a b.png"], none⟩ =
        .ok ["http://a.com/file?q=a b.png"] ∧
      truncateAtParams "http://a.com/file?q=a b.png" = "http://a.com/file" ∧
      '.' ∉ lastSegment (truncateAtParams "http://a.com/file?q=a b.png").data ∧
      urlWithoutParams "http://a.com/file?q=a b.png" = "http://a.com/file b.png" ∧
      (∀ tbl : Char → Char, filterURLs tbl ["http://a.com/file?q=a b.png"] ["png"] = []) :=
  ⟨rfl, by decide, by decide, by decide, fun _ => rfl⟩

/-- C6, as the code has it: a URL of the input without any rune of `\s` whose
truncation at the first `?` or `#` ends in a `.` has the extension `"."` (not the
empty one); it is kept exactly when the blacklist has no empty entry. For every
URL of the input the same holds when it is the string the code examines (the
result of its regular-expression replacement) that ends in a `.`. -/
theorem filterURLs_trailing_dot (tbl : Char → Char) (urls blacklist : List String)
    (u : String) (a : List Char) (hu : u ∈ urls) :
    ((∀ c ∈ u.data, isPerlSpace c = false) →
        (truncateAtParams u).data = a ++ ['.'] →
        Ext (urlWithoutParams u) = "." ∧ urlExt tbl u = "." ∧
          (u ∈ filterURLs tbl urls blacklist ↔ "" ∉ blacklist)) ∧
      ((urlWithoutParams u).data = a ++ ['.'] →
        Ext (urlWithoutParams u) = "." ∧ urlExt tbl u = "." ∧
          (u ∈ filterURLs tbl urls blacklist ↔ "" ∉ blacklist)) := by
  have hgen : (urlWithoutParams u).data = a ++ ['.'] →
      Ext (urlWithoutParams u) = "." ∧ urlExt tbl u = "." ∧
        (u ∈ filterURLs tbl urls blacklist ↔ "" ∉ blacklist) := by
    intro hs
    have hE : Ext (urlWithoutParams u) = "." := by
      unfold Ext
      rw [hs, extLoop_dot a [] (by simp)]
    have hext : urlExt tbl u = "." := by
      unfold urlExt
      rw [hE]
      rfl
    refine ⟨hE, hext, ?_⟩
    rw [mem_filterURLs, hext]
    constructor
    · rintro ⟨_, hk⟩ hmem
      exact hk "" hmem rfl
    · intro hne
      refine ⟨hu, fun e he heq => ?_⟩
      have he0 : e = "" := (ToLower_eq_empty tbl e).mp ((dot_append_eq_dot _).mp heq)
      exact hne (he0 ▸ he)
  refine ⟨?_, hgen⟩
  intro hws hs
  have hstrip : urlWithoutParams u = truncateAtParams u :=
    String.ext (replaceAll_noSpace u.data hws)
  exact hgen (hstrip ▸ hs)

/-- C6, at `http://a.com/file.?v=2` with the blacklist `["png", "js"]`: the
truncation ends in a `.`, the extension is `"."` and the URL is kept, the
blacklist having no empty entry. -/
theorem filterURLs_trailing_dot_witness :
    "http://a.com/file.?v=2" ∈ ["http://a.com/file.?v=2"] ∧
      (∀ c ∈ ("http://a.com/file.?v=2" : String).data, isPerlSpace c = false) ∧
      (truncateAtParams "http://a.com/file.?v=2").data = "http://a.com/file".data ++ ['.'] ∧
      Ext (urlWithoutParams "http://a.com/file.?v=2") = "." ∧
      urlExt sampleTable "http://a.com/file.?v=2" = "." ∧
      ("http://a.com/file.?v=2" ∈
          filterURLs sampleTable ["http://a.com/file.?v=2"] ["png", "js"] ↔
        "" ∉ ["png", "js"]) ∧
      filterURLs sampleTable ["http://a.com/file.?v=2"] ["png", "js"] =
        ["http://a.com/file.?v=2"] ∧
      filterURLs sampleTable ["http://a.com/file.?v=2"] ["png", ""] = [] :=
  ⟨by decide, by decide, by decide,
    (filterURLs_trailing_dot sampleTable ["http://a.com/file.?v=2"] ["png", "js"]
      "http://a.com/file.?v=2" "http://a.com/file".data (by decide)).1
      (by decide) (by decide) |>.1,
    (filterURLs_trailing_dot sampleTable ["http://a.com/file.?v=2"] ["png", "js"]
      "http://a.com/file.?v=2" "http://a.com/file".data (by decide)).1
      (by decide) (by decide) |>.2.1,
    (filterURLs_trailing_dot sampleTable ["http://a.com/file.?v=2"] ["png", "js"]
      "http://a.com/file.?v=2" "http://a.com/file".data (by decide)).1
      (by decide) (by decide) |>.2.2,
    by decide, by decide⟩

/-- C6 fails as stated: for `http://a.com/file.` the computed extension is `"."`,
not empty, and with an empty blacklist entry the URL is dropped, whatever the
Unicode table. -/
theorem filterURLs_trailing_dot_counterexample :
    Ext (urlWithoutParams "http://a.com/file.") = "." ∧
      (∀ tbl : Char → Char, urlExt tbl "http://a.com/file." ≠ "") ∧
      (∀ tbl : Char → Char, filterURLs tbl ["http://a.com/file."] [""] = []) :=
  ⟨by decide,
    fun tbl h => by
      have hdot : urlExt tbl "http://a.com/file." = "." := rfl
      rw [hdot] at h
      exact absurd h (by decide),
    fun _ => rfl⟩

/-- C2, as the code has it. Write a URL as `pre`, `pre ++ "#" ++ t` or
`pre ++ "?" ++ t` with no `?` and no `#` in `pre` (every URL has one of these
forms, `params_decompose`), so that its truncation at the first `?` or `#` is
`pre`. The string examined is that truncation when neither
character occurs; when the first is `#`, exactly if no line feed follows; when
the first is `?`, exactly if no rune of `\s` (tab, line feed, form feed,
carriage return, space) follows. In general after `?` only the run of non-space
runes is removed and the replacement goes on from the first space. -/
theorem urlWithoutParams_truncation (pre t : String)
    (hpre : ∀ c ∈ pre.data, c ≠ '?' ∧ c ≠ '#') :
    (urlWithoutParams pre = pre ∧ truncateAtParams pre = pre) ∧
      (truncateAtParams (pre ++ "#" ++ t) = pre ∧ truncateAtParams (pre ++ "?" ++ t) = pre) ∧
      (urlWithoutParams (pre ++ "#" ++ t) = truncateAtParams (pre ++ "#" ++ t) ↔
        '\n' ∉ t.data) ∧
      (urlWithoutParams (pre ++ "?" ++ t) = truncateAtParams (pre ++ "?" ++ t) ↔
        ∀ c ∈ t.data, isPerlSpace c = false) ∧
      urlWithoutParams (pre ++ "?" ++ t) =
        pre ++ urlWithoutParams ⟨t.data.dropWhile notPerlSpace⟩ ∧
      ('\n' ∈ t.data → urlWithoutParams (pre ++ "#" ++ t) = pre ++ "#" ++ urlWithoutParams t) := by
  have htq : truncateAtParams (pre ++ "?" ++ t) = pre := by
    rw [append_question_data]
    apply String.ext
    exact takeWhile_plain pre.data t.data '?' hpre (Or.inl rfl)
  have hth : truncateAtParams (pre ++ "#" ++ t) = pre := by
    rw [append_hash_data]
    apply String.ext
    exact takeWhile_plain pre.data t.data '#' hpre (Or.inr rfl)
  refine ⟨⟨?_, ?_⟩, ⟨hth, htq⟩, ?_, ?_, ?_, ?_⟩
  · apply String.ext
    exact replaceAll_plain pre.data hpre
  · apply String.ext
    exact takeWhile_plain_self pre.data hpre
  · rw [hth, append_hash_data, urlWithoutParams_append pre _ hpre, mk_append_eq_self,
      replaceAll_hash_eq_nil_iff]
  · rw [htq, append_question_data, urlWithoutParams_append pre _ hpre, mk_append_eq_self,
      replaceAll_question_eq_nil_iff]
  · rw [append_question_data, urlWithoutParams_append pre _ hpre, replaceAll_question]
    apply String.ext
    simp [String.data_append, urlWithoutParams, ReplaceAllString]
  · intro hnl
    have hall : t.data.all notNewline = false := by
      rw [← Bool.not_eq_true, all_notNewline_iff]
      exact fun h => h hnl
    rw [append_hash_data, urlWithoutParams_append pre _ hpre, replaceAll_hash_newline _ hall]
    apply String.ext
    simp [String.data_append, urlWithoutParams, ReplaceAllString]

/-- C2, at `pre = http://a.com/x.png` and `t = v=2`: no space follows the `?`,
and the string examined is the truncation `http://a.com/x.png`. -/
theorem urlWithoutParams_truncation_witness :
    (∀ c ∈ ("http://a.com/x.png" : String).data, c ≠ '?' ∧ c ≠ '#') ∧
      (urlWithoutParams ("http://a.com/x.png" ++ "?" ++ "v=2") =
          truncateAtParams ("http://a.com/x.png" ++ "?" ++ "v=2") ↔
        ∀ c ∈ ("v=2" : String).data, isPerlSpace c = false) ∧
      urlWithoutParams ("http://a.com/x.png" ++ "?" ++ "v=2") = "http://a.com/x.png" :=
  ⟨by decide,
    (urlWithoutParams_truncation "http://a.com/x.png" "v=2" (by decide)).2.2.2.1,
    by decide⟩

/-- C2 fails as stated: the line `http://a.com/x.png?q=a b.html` reaches
`filterURLs` unchanged; its truncation at the first `?` is `http://a.com/x.png`,
but the string examined is `http://a.com/x.png b.html`, so that with blacklist
`["png"]` the URL is kept although its truncation has the extension `.png`. -/
theorem urlWithoutParams_truncation_counterexample :
    readURLsFromInput ⟨["http://a.com/x.png?q=a b.html"], none⟩ =
        .ok ["http://a.com/x.png?q=a b.html"] ∧
      truncateAtParams "http://a.com/x.png?q=a b.html" = "http://a.com/x.png" ∧
      urlWithoutParams "http://a.com/x.png?q=a b.html" = "http://a.com/x.png b.html" ∧
      urlWithoutParams "http://a.com/x.png?q=a b.html" ≠
        truncateAtParams "http://a.com/x.png?q=a b.html" ∧
      (∀ tbl : Char → Char,
        filterURLs tbl ["http://a.com/x.png?q=a b.html"] ["png"] =
          ["http://a.com/x.png?q=a b.html"]) ∧
      (∀ tbl : Char → Char,
        filterBySearch tbl ["http://a.com/x.png?q=a b.html"] ["png"] = []) :=
  ⟨rfl, by decide, by decide, by decide, fun _ => rfl, fun _ => rfl⟩

/-- C9: on URLs free of the runes of `\s` (line feed included) the replacement of
`filterURLs` returns the part of the URL before its first `?` or `#` (all of it
when neither occurs), and `filterURLs` is the filter that truncates by plain
search and applies the same extension comparison. -/
theorem filterURLs_eq_filterBySearch (tbl : Char → Char) (urls blacklist : List String)
    (hws : ∀ u ∈ urls, ∀ c ∈ u.data, isPerlSpace c = false) :
    (∀ u ∈ urls, urlWithoutParams u = truncateAtParams u) ∧
      filterURLs tbl urls blacklist = filterBySearch tbl urls blacklist := by
  have hstrip : ∀ u ∈ urls, urlWithoutParams u = truncateAtParams u := by
    intro u hu
    apply String.ext
    exact replaceAll_noSpace u.data (hws u hu)
  refine ⟨hstrip, ?_⟩
  rw [filterURLs_eq_filter, filterBySearch]
  apply List.filter_congr
  intro u hu
  rw [isExcluded_eq_any, urlExt, hstrip u hu]

/-- C9, at a list with a query, a fragment, both in either order, and neither. -/
theorem filterURLs_eq_filterBySearch_witness :
    (∀ u ∈ ["http://a.com/x.png?v=2#top", "http://a.com/y.JS#a?b", "http://a.com/z.html"],
        ∀ c ∈ u.data, isPerlSpace c = false) ∧
      urlWithoutParams "http://a.com/x.png?v=2#top" = "http://a.com/x.png" ∧
      urlWithoutParams "http://a.com/y.JS#a?b" = "http://a.com/y.JS" ∧
      filterURLs sampleTable
          ["http://a.com/x.png?v=2#top", "http://a.com/y.JS#a?b", "http://a.com/z.html"]
          ["png", "js"] =
        filterBySearch sampleTable
          ["http://a.com/x.png?v=2#top", "http://a.com/y.JS#a?b", "http://a.com/z.html"]
          ["png", "js"] :=
  ⟨by decide, by decide, by decide,
    (filterURLs_eq_filterBySearch sampleTable
      ["http://a.com/x.png?v=2#top", "http://a.com/y.JS#a?b", "http://a.com/z.html"]
      ["png", "js"] (by decide)).2⟩

/-- C10: a blacklist entry containing a `.` or a `/` never excludes a URL:
removing all such entries from the blacklist leaves the result of `filterURLs`
unchanged, and a blacklist made of one such entry keeps every URL. The Unicode
table is assumed, as is the case for the real one, never to lower a rune to `.`
or `/`. -/
theorem filterURLs_ignores_dotted_entries (tbl : Char → Char)
    (htbl : ∀ c : Char, 127 < c.toNat → tbl c ≠ '.' ∧ tbl c ≠ '/')
    (urls blacklist : List String) :
    filterURLs tbl urls blacklist =
        filterURLs tbl urls
          (blacklist.filter (fun e => !(decide ('.' ∈ e.data) || decide ('/' ∈ e.data)))) ∧
      ∀ e : String, ('.' ∈ e.data ∨ '/' ∈ e.data) → filterURLs tbl urls [e] = urls := by
  constructor
  · rw [filterURLs_eq_filter, filterURLs_eq_filter]
    apply List.filter_congr
    intro u _
    unfold urlExt
    rw [isExcluded_filter_dotted tbl htbl]
  · intro e he
    rw [filterURLs_eq_filter, List.filter_eq_self]
    intro u _
    unfold urlExt
    simp [isExcluded, ToLower_ext_ne_dotted tbl htbl _ e he]

/-- C10, at the blacklist `[".png", "tar.gz", "a/b", "gz"]`: only `gz` counts. -/
theorem filterURLs_ignores_dotted_entries_witness :
    (∀ c : Char, 127 < c.toNat → sampleTable c ≠ '.' ∧ sampleTable c ≠ '/') ∧
      filterURLs sampleTable ["http://a.com/x.png", "http://a.com/y.tar.gz", "http://a.com/a/b"]
          [".png", "tar.gz", "a/b", "gz"] =
        filterURLs sampleTable
          ["http://a.com/x.png", "http://a.com/y.tar.gz", "http://a.com/a/b"] ["gz"] ∧
      filterURLs sampleTable ["http://a.com/x.png", "http://a.com/y.tar.gz", "http://a.com/a/b"]
          [".png", "tar.gz", "a/b", "gz"] =
        ["http://a.com/x.png", "http://a.com/a/b"] :=
  have htbl : ∀ c : Char, 127 < c.toNat → sampleTable c ≠ '.' ∧ sampleTable c ≠ '/' := by
    intro c hc
    unfold sampleTable
    split
    · exact ⟨by decide, by decide⟩
    · split
      · exact ⟨by decide, by decide⟩
      · constructor
        · rintro rfl
          exact absurd hc (by decide)
        · rintro rfl
          exact absurd hc (by decide)
  ⟨htbl,
    (filterURLs_ignores_dotted_entries sampleTable htbl
      ["http://a.com/x.png", "http://a.com/y.tar.gz", "http://a.com/a/b"]
      [".png", "tar.gz", "a/b", "gz"]).1,
    by decide⟩

/-- C4: the decision of `filterURLs` does not depend on letter case. If two URLs
differ only in letter case (in their extension, or anywhere else) and two
blacklists have the same entries after lower-casing, then the first URL is kept
under the first blacklist exactly when the second URL is kept under the second;
and both URLs have the same lower-cased extension. -/
theorem filterURLs_case_insensitive (tbl : Char → Char) (u v : String)
    (b1 b2 urls1 urls2 : List String)
    (huv : sameUpToCase tbl u.data v.data = true)
    (hb : b1.map (ToLower tbl) = b2.map (ToLower tbl))
    (hu : u ∈ urls1) (hv : v ∈ urls2) :
    urlExt tbl u = urlExt tbl v ∧
      (u ∈ filterURLs tbl urls1 b1 ↔ v ∈ filterURLs tbl urls2 b2) := by
  have hext := urlExt_sameUpToCase tbl u v huv
  refine ⟨hext, ?_⟩
  rw [mem_filterURLs, mem_filterURLs, hext]
  constructor
  · rintro ⟨_, hk⟩
    refine ⟨hv, fun e he heq => ?_⟩
    have hmem : ToLower tbl e ∈ b1.map (ToLower tbl) := by
      rw [hb]
      exact List.mem_map_of_mem _ he
    obtain ⟨e1, he1, heq1⟩ := List.mem_map.mp hmem
    exact hk e1 he1 (by rw [heq1]; exact heq)
  · rintro ⟨_, hk⟩
    refine ⟨hu, fun e he heq => ?_⟩
    have hmem : ToLower tbl e ∈ b2.map (ToLower tbl) := by
      rw [← hb]
      exact List.mem_map_of_mem _ he
    obtain ⟨e2, he2, heq2⟩ := List.mem_map.mp hmem
    exact hk e2 he2 (by rw [heq2]; exact heq)

/-- C4, at `https://x.com/a.PNG` under `["png"]` and `https://x.com/a.png` under
`["PNG"]`: both are dropped. -/
theorem filterURLs_case_insensitive_witness :
    sameUpToCase sampleTable ("https://x.com/a.PNG" : String).data
        ("https://x.com/a.png" : String).data = true ∧
      ["png"].map (ToLower sampleTable) = ["PNG"].map (ToLower sampleTable) ∧
      ("https://x.com/a.PNG" ∈ filterURLs sampleTable ["https://x.com/a.PNG"] ["png"] ↔
        "https://x.com/a.png" ∈ filterURLs sampleTable ["https://x.com/a.png"] ["PNG"]) ∧
      filterURLs sampleTable ["https://x.com/a.PNG"] ["png"] = [] ∧
      filterURLs sampleTable ["https://x.com/a.png"] ["PNG"] = [] :=
  ⟨by decide, by decide,
    (filterURLs_case_insensitive sampleTable "https://x.com/a.PNG" "https://x.com/a.png"
      ["png"] ["PNG"] ["https://x.com/a.PNG"] ["https://x.com/a.png"]
      (by decide) (by decide) (by decide) (by decide)).2,
    by decide, by decide⟩

/-! ## The claim about the readers -/

theorem IsSpace_iff (c : Char) : IsSpace c = true ↔ c.toNat ∈ whiteSpaceCodePoints := by
  unfold IsSpace whiteSpaceCodePoints
  generalize c.toNat = n
  by_cases h : n ≤ 255
  · simp only [h, if_true, Bool.or_eq_true, decide_eq_true_eq, List.mem_cons,
      List.mem_singleton, List.mem_nil_iff, or_false]
    omega
  · simp only [h, if_false, Bool.or_eq_true, Bool.and_eq_true, decide_eq_true_eq,
      List.mem_cons, List.mem_singleton, List.mem_nil_iff, or_false]
    omega

theorem TrimSpace_decompose (l : String) :
    ∃ a b : List Char, l.data = a ++ (TrimSpace l).data ++ b ∧
      (∀ c ∈ a, IsSpace c = true) ∧ (∀ c ∈ b, IsSpace c = true) := by
  refine ⟨l.data.takeWhile IsSpace,
    ((l.data.dropWhile IsSpace).reverse.takeWhile IsSpace).reverse, ?_, ?_, ?_⟩
  · have h1 : l.data = l.data.takeWhile IsSpace ++ l.data.dropWhile IsSpace :=
      (List.takeWhile_append_dropWhile IsSpace l.data).symm
    have h2 : (l.data.dropWhile IsSpace).reverse =
        (l.data.dropWhile IsSpace).reverse.takeWhile IsSpace ++
          (l.data.dropWhile IsSpace).reverse.dropWhile IsSpace :=
      (List.takeWhile_append_dropWhile IsSpace _).symm
    have h3 : l.data.dropWhile IsSpace =
        ((l.data.dropWhile IsSpace).reverse.dropWhile IsSpace).reverse ++
          ((l.data.dropWhile IsSpace).reverse.takeWhile IsSpace).reverse := by
      rw [← List.reverse_append, ← h2, List.reverse_reverse]
    show l.data = l.data.takeWhile IsSpace ++
      ((l.data.dropWhile IsSpace).reverse.dropWhile IsSpace).reverse ++
        ((l.data.dropWhile IsSpace).reverse.takeWhile IsSpace).reverse
    rw [List.append_assoc, ← h3, ← h1]
  · intro c hc
    exact List.mem_takeWhile_imp hc
  · intro c hc
    exact List.mem_takeWhile_imp (List.mem_reverse.mp hc)

/-- C8: when the scanner reports no error, both readers return the lines trimmed
of surrounding white space, without the lines that are empty after trimming, in
the original order, and so agree on the same lines; when the scanner reports an
error, or the file cannot be opened, they end in `log.Fatalf` and hand nothing
to `filterURLs`. Trimming removes a run of white-space runes (the Unicode
`White_Space` code points) at each end of the line and nothing else, and leaves
no such rune at either end; so no URL handed to `filterURLs` is empty or begins
or ends with white space. -/
theorem readers_trim_and_drop_blank (lines : List String) :
    readURLsFromInput ⟨lines, none⟩ =
        .ok ((lines.map TrimSpace).filter (fun u => decide (u ≠ ""))) ∧
      readURLsFromFile (.ok ⟨lines, none⟩) =
        .ok ((lines.map TrimSpace).filter (fun u => decide (u ≠ ""))) ∧
      readURLsFromFile (.ok ⟨lines, none⟩) = readURLsFromInput ⟨lines, none⟩ ∧
      (∀ e : String,
        readURLsFromInput ⟨lines, some e⟩ = .error ("Error reading from stdin: " ++ e) ∧
          readURLsFromFile (.ok ⟨lines, some e⟩) = .error ("Error reading from file: " ++ e) ∧
          readURLsFromFile (.error e) = .error ("Error opening input file: " ++ e)) ∧
      (∀ l : String, ∃ a b : List Char,
        l.data = a ++ (TrimSpace l).data ++ b ∧
          (∀ c ∈ a, c.toNat ∈ whiteSpaceCodePoints) ∧
          (∀ c ∈ b, c.toNat ∈ whiteSpaceCodePoints) ∧
          (∀ c, (TrimSpace l).data.head? = some c → c.toNat ∉ whiteSpaceCodePoints) ∧
          (∀ c, (TrimSpace l).data.getLast? = some c → c.toNat ∉ whiteSpaceCodePoints)) ∧
      (∀ urls, readURLsFromInput ⟨lines, none⟩ = .ok urls → ∀ u ∈ urls,
        u ≠ "" ∧ (∀ c, u.data.head? = some c → c.toNat ∉ whiteSpaceCodePoints) ∧
          (∀ c, u.data.getLast? = some c → c.toNat ∉ whiteSpaceCodePoints)) ∧
      readURLsFromInput
          ⟨["  http://a.com/x.html \t", "", " \t ", "http://a.com/y.html?q=a b\r"], none⟩ =
        .ok ["http://a.com/x.html", "http://a.com/y.html?q=a b"] ∧
      readURLsFromFile
          (.ok ⟨["  http://a.com/x.html \t", "", " \t ", "http://a.com/y.html?q=a b\r"], none⟩) =
        .ok ["http://a.com/x.html", "http://a.com/y.html?q=a b"] := by
  have hin : readURLsFromInput ⟨lines, none⟩ =
      .ok ((lines.map TrimSpace).filter (fun u => decide (u ≠ ""))) :=
    congrArg Except.ok (readLoop_eq lines)
  have hfile : readURLsFromFile (.ok ⟨lines, none⟩) =
      .ok ((lines.map TrimSpace).filter (fun u => decide (u ≠ ""))) :=
    congrArg Except.ok (readLoop_eq lines)
  have hnot : ∀ c : Char, IsSpace c = false → c.toNat ∉ whiteSpaceCodePoints := by
    intro c hc hmem
    rw [(IsSpace_iff c).mpr hmem] at hc
    exact absurd hc (by decide)
  refine ⟨hin, hfile, hfile.trans hin.symm, fun e => ⟨rfl, rfl, rfl⟩, ?_, ?_, rfl, rfl⟩
  · intro l
    obtain ⟨a, b, hl, ha, hb⟩ := TrimSpace_decompose l
    exact ⟨a, b, hl, fun c hc => (IsSpace_iff c).mp (ha c hc),
      fun c hc => (IsSpace_iff c).mp (hb c hc),
      fun c hc => hnot c (TrimSpace_head l c hc),
      fun c hc => hnot c (TrimSpace_last l c hc)⟩
  · intro urls hurls u hu
    rw [hin] at hurls
    have hEq : (lines.map TrimSpace).filter (fun u => decide (u ≠ "")) = urls :=
      Except.ok.inj hurls
    rw [← hEq, List.mem_filter, List.mem_map] at hu
    obtain ⟨⟨l, _, rfl⟩, hne⟩ := hu
    exact ⟨by simpa using hne, fun c hc => hnot c (TrimSpace_head l c hc),
      fun c hc => hnot c (TrimSpace_last l c hc)⟩

end NoJunk
